import Mathlib

/-!
Verification of ACPIProxy (acpiproxy.py / acpipatch.py / util.py).

Bytes are modelled as natural numbers (the Python code reads single bytes and
represents each as its two-digit uppercase hex string; that representation is a
bijection with the byte value, so byte-valued naturals are used throughout and
string comparisons on hex strings become equality of byte values).
-/

namespace ACPIProxy

/-- `is_valid_acpiname_char` from acpiproxy.py: A-Z, a-z, 0-9 or `_`. -/
def is_valid_acpiname_char (dec_ascii : Nat) : Bool :=
  (65 ≤ dec_ascii && dec_ascii ≤ 90) ||
  (97 ≤ dec_ascii && dec_ascii ≤ 122) ||
  (48 ≤ dec_ascii && dec_ascii ≤ 57) ||
  (dec_ascii == 95)

/--
The loop body of `find_method_declarations` from acpiproxy.py, with the file
cursor made explicit as `pos`.  Each iteration reads the byte at `pos`
(`aml.read(1)` after remembering `prevpos = aml.tell()`); EOF ends the loop.
`buf` is the candidate byte buffer, `numread` the count of bytes still to read
in the current phase, `read_len` whether length-prefix bytes are being read,
and `results` the accumulator.  The reset branch (`buf = []; aml.seek(prevpos)`)
re-reads the offending byte with an empty buffer, hence recurses at the same
`pos`.
-/
def scanLoop (data : List Nat) (pos : Nat) (buf : List Nat)
    (numread : Nat) (read_len : Bool) (results : List (List Nat)) :
    List (List Nat) :=
  if hpos : pos < data.length then
    -- wait for a method to begin
    if buf = [] ∧ data[pos] ≠ 20 then
      scanLoop data (pos + 1) buf numread read_len results
    else
      -- just read in opcode (append to the buffer)
      if (buf ++ [data[pos]]).length = 1 then
        scanLoop data (pos + 1) (buf ++ [data[pos]]) numread read_len results
      else if (buf ++ [data[pos]]).length = 2 then
        -- first byte after opcode dictates the amount of length bytes
        if data[pos] >>> 6 = 0 then
          scanLoop data (pos + 1) (buf ++ [data[pos]]) 4 false results
        else
          scanLoop data (pos + 1) (buf ++ [data[pos]]) (data[pos] >>> 6) true results
      else if read_len = false ∧ is_valid_acpiname_char data[pos] = false then
        -- not a valid acpi name char, re-set and search again
        scanLoop data pos [] numread read_len results
      else if 1 < numread then
        scanLoop data (pos + 1) (buf ++ [data[pos]]) (numread - 1) read_len results
      else if read_len = false then
        -- read name finished, finish method
        scanLoop data (pos + 1) [] numread read_len (results ++ [buf ++ [data[pos]]])
      else
        -- read length finished, read in name
        scanLoop data (pos + 1) (buf ++ [data[pos]]) 4 false results
  else results
  termination_by 2 * (data.length - pos) + min buf.length 1
  decreasing_by
  all_goals
    try simp only [List.length_append, List.length_cons, List.length_nil] at *
  all_goals omega

/-- `find_method_declarations` from acpiproxy.py (initial state: empty buffer,
`numread = 0`, `read_len = True`). -/
def find_method_declarations (data : List Nat) : List (List Nat) :=
  scanLoop data 0 [] 0 true []

/-- The per-result invariant of the scanner: at least 4 bytes, and the last 4
bytes (the reversed list's first 4) are valid acpi name characters. -/
def goodDecl (r : List Nat) : Prop :=
  4 ≤ r.length ∧ ∀ c ∈ r.reverse.take 4, is_valid_acpiname_char c = true

theorem scanLoop_names_valid (data : List Nat) (pos : Nat) (buf : List Nat)
    (numread : Nat) (read_len : Bool) (results : List (List Nat)) :
    (∀ r ∈ results, goodDecl r) →
    (read_len = false → 2 ≤ buf.length →
      1 ≤ numread ∧ numread ≤ 4 ∧ 4 - numread + 2 ≤ buf.length ∧
      ∀ c ∈ buf.reverse.take (4 - numread), is_valid_acpiname_char c = true) →
    ∀ r ∈ scanLoop data pos buf numread read_len results, goodDecl r := by
  refine scanLoop.induct data
    (motive := fun pos buf numread read_len results =>
      (∀ r ∈ results, goodDecl r) →
      (read_len = false → 2 ≤ buf.length →
        1 ≤ numread ∧ numread ≤ 4 ∧ 4 - numread + 2 ≤ buf.length ∧
        ∀ c ∈ buf.reverse.take (4 - numread), is_valid_acpiname_char c = true) →
      ∀ r ∈ scanLoop data pos buf numread read_len results, goodDecl r)
    ?_ ?_ ?_ ?_ ?_ ?_ ?_ ?_ ?_ pos buf numread read_len results
  · -- skip: searching for an opcode
    intro pos buf numread read_len results h hc ih hAcc hBuf
    rw [scanLoop, dif_pos h, if_pos hc]
    exact ih hAcc hBuf
  · -- opcode byte appended, buffer now has one byte
    intro pos buf numread read_len results h hc1 hlen1 ih hAcc hBuf
    rw [scanLoop, dif_pos h, if_neg hc1, if_pos hlen1]
    refine ih hAcc (fun hrl hlen => absurd hlen (by omega))
  · -- length byte with zero extra length bytes: enter the name phase
    intro pos buf numread read_len results h hc1 hlen1 hlen2 hshift ih hAcc hBuf
    rw [scanLoop, dif_pos h, if_neg hc1, if_neg hlen1, if_pos hlen2, if_pos hshift]
    refine ih hAcc (fun _ hlen => ⟨by omega, by omega, by omega, by simp⟩)
  · -- length byte with extra length bytes to read
    intro pos buf numread read_len results h hc1 hlen1 hlen2 hshift ih hAcc hBuf
    rw [scanLoop, dif_pos h, if_neg hc1, if_neg hlen1, if_pos hlen2, if_neg hshift]
    refine ih hAcc (fun hrl _ => absurd hrl (by simp))
  · -- invalid name byte: reset
    intro pos buf numread read_len results h hc1 hlen1 hlen2 hval ih hAcc hBuf
    rw [scanLoop, dif_pos h, if_neg hc1, if_neg hlen1, if_neg hlen2, if_pos hval]
    refine ih hAcc (fun _ hlen => absurd hlen (by simp))
  · -- still bytes to read in the current phase
    intro pos buf numread read_len results h hc1 hlen1 hlen2 hval hnr ih hAcc hBuf
    rw [scanLoop, dif_pos h, if_neg hc1, if_neg hlen1, if_neg hlen2, if_neg hval,
      if_pos hnr]
    refine ih hAcc (fun hrl hlen => ?_)
    have hbuflen : 2 ≤ buf.length := by
      simp only [List.length_append, List.length_cons, List.length_nil] at hlen1 hlen2
      omega
    have hB := hBuf hrl hbuflen
    have hvalb : is_valid_acpiname_char data[pos] = true := by
      rcases Bool.eq_false_or_eq_true (is_valid_acpiname_char data[pos]) with ht | hf
      · exact ht
      · exact absurd ⟨hrl, hf⟩ hval
    refine ⟨by omega, by omega,
      by simp only [List.length_append, List.length_cons, List.length_nil]; omega, ?_⟩
    rw [show (4 - (numread - 1)) = (4 - numread) + 1 by omega, List.reverse_append,
      List.reverse_cons, List.reverse_nil, List.nil_append, List.cons_append,
      List.nil_append, List.take_succ_cons]
    intro c hc
    rcases List.mem_cons.mp hc with rfl | hc'
    · exact hvalb
    · exact hB.2.2.2 c hc'
  · -- name finished: emit the declaration
    intro pos buf numread results h hc1 hlen1 hlen2 hnr hval ih hAcc hBuf
    rw [scanLoop, dif_pos h, if_neg hc1, if_neg hlen1, if_neg hlen2, if_neg hval,
      if_neg hnr, if_pos rfl]
    have hbuflen : 2 ≤ buf.length := by
      simp only [List.length_append, List.length_cons, List.length_nil] at hlen1 hlen2
      omega
    have hB := hBuf rfl hbuflen
    have hvalb : is_valid_acpiname_char data[pos] = true := by
      rcases Bool.eq_false_or_eq_true (is_valid_acpiname_char data[pos]) with ht | hf
      · exact ht
      · exact absurd ⟨rfl, hf⟩ hval
    have hgood : goodDecl (buf ++ [data[pos]]) := by
      refine ⟨by simp only [List.length_append, List.length_cons, List.length_nil]; omega, ?_⟩
      rw [List.reverse_append, List.reverse_cons, List.reverse_nil, List.nil_append,
        List.cons_append, List.nil_append,
        show (4 : Nat) = 3 + 1 from rfl, List.take_succ_cons]
      intro c hc
      rcases List.mem_cons.mp hc with rfl | hc'
      · exact hvalb
      · exact hB.2.2.2 c (by rw [show 4 - numread = 3 by omega] at hB ⊢; exact hc')
    refine ih ?_ (fun _ hlen => absurd hlen (by simp))
    intro r hr
    rcases List.mem_append.mp hr with h1 | h1
    · exact hAcc r h1
    · rw [List.mem_singleton.mp h1]
      exact hgood
  · -- last length byte read: the name phase begins
    intro pos buf numread read_len results h hc1 hlen1 hlen2 hval hnr hrl ih hAcc hBuf
    rw [scanLoop, dif_pos h, if_neg hc1, if_neg hlen1, if_neg hlen2, if_neg hval,
      if_neg hnr, if_neg hrl]
    refine ih hAcc (fun _ hlen => ⟨by omega, by omega, by omega, by simp⟩)
  · -- end of stream
    intro pos buf numread read_len results h hAcc _
    rw [scanLoop, dif_neg h]
    exact hAcc

/-- Modelled from the spec (claim C2's resumption rule): a scanner variant
identical to `scanLoop` except that on a failed identifier check it resumes
scanning one byte after the position where the candidate's opcode byte was
found, as the claim words it, instead of at the offending byte.  `start`
records the position of the current candidate's opcode; the recursion is
driven by explicit fuel (this variant can move the cursor backwards, so it is
only evaluated on concrete inputs with ample fuel). -/
def scanLoopSpecC2 (data : List Nat) :
    Nat → Nat → Nat → List Nat → Nat → Bool → List (List Nat) → List (List Nat)
  | 0, _, _, _, _, _, results => results
  | fuel + 1, pos, start, buf, numread, read_len, results =>
    if _h : pos < data.length then
      if buf = [] ∧ data[pos] ≠ 20 then
        scanLoopSpecC2 data fuel (pos + 1) start buf numread read_len results
      else if buf = [] then
        -- a candidate begins here: remember the opcode position
        scanLoopSpecC2 data fuel (pos + 1) pos (buf ++ [data[pos]]) numread
          read_len results
      else if (buf ++ [data[pos]]).length = 2 then
        if data[pos] >>> 6 = 0 then
          scanLoopSpecC2 data fuel (pos + 1) start (buf ++ [data[pos]]) 4 false
            results
        else
          scanLoopSpecC2 data fuel (pos + 1) start (buf ++ [data[pos]])
            (data[pos] >>> 6) true results
      else if read_len = false ∧ is_valid_acpiname_char data[pos] = false then
        -- the claimed rule: resume one byte after the candidate's opcode
        scanLoopSpecC2 data fuel (start + 1) start [] numread read_len results
      else if 1 < numread then
        scanLoopSpecC2 data fuel (pos + 1) start (buf ++ [data[pos]])
          (numread - 1) read_len results
      else if read_len = false then
        scanLoopSpecC2 data fuel (pos + 1) start [] numread read_len
          (results ++ [buf ++ [data[pos]]])
      else
        scanLoopSpecC2 data fuel (pos + 1) start (buf ++ [data[pos]]) 4 false
          results
    else results

/-- The claim-C2 variant run from the initial state with ample fuel. -/
def find_method_declarations_specC2 (data : List Nat) : List (List Nat) :=
  scanLoopSpecC2 data (2 * data.length * data.length + 2 * data.length + 1)
    0 0 [] 0 true []

/-- `hexbytes_to_ascii_name` from util.py: `bytes[-4:]` keeps the last four
hex-byte strings and `chr(int(x, 16))` decodes each to the character with that
byte value, so on byte values the function is `drop (length - 4)`. -/
def hexbytes_to_ascii_name (bs : List Nat) : List Nat :=
  bs.drop (bs.length - 4)

/-- `translate_pattern_char` from acpiproxy.py, with each produced regex
fragment interpreted as the set of character codes it denotes:
`[0-9]` is 48-57, `[0-9_]` adds 95, `[A-Z]` is 65-90, `[A-Z_]` adds 95,
`[A-Z0-9]` is 65-90 or 48-57, `[A-Z0-9_]` adds 95, and any other character is
an exact-match regex literal.  Codes: `+` 43, `!` 33, `-` 45, `@` 64, `?` 63,
`*` 42. -/
def translate_pattern_char (p : Nat) : Nat → Bool :=
  if p = 43 then fun c => 48 ≤ c && c ≤ 57
  else if p = 33 then fun c => (48 ≤ c && c ≤ 57) || c == 95
  else if p = 45 then fun c => 65 ≤ c && c ≤ 90
  else if p = 64 then fun c => (65 ≤ c && c ≤ 90) || c == 95
  else if p = 63 then fun c => (65 ≤ c && c ≤ 90) || (48 ≤ c && c ≤ 57)
  else if p = 42 then fun c => (65 ≤ c && c ≤ 90) || (48 ≤ c && c ≤ 57) || c == 95
  else fun c => c == p

/-- `compile_custom_pattern` from acpiproxy.py: the compiled regex is the
concatenation of the per-character units. -/
def compile_custom_pattern (pat : List Nat) : List (Nat → Bool) :=
  pat.map translate_pattern_char

/-- `re.match` of a concatenation of single-character units: anchored at the
start of the string, each unit consumes exactly one character, and the string
may extend past the units. -/
def matchUnits : List (Nat → Bool) → List Nat → Bool
  | [], _ => true
  | _ :: _, [] => false
  | u :: us, c :: cs => u c && matchUnits us cs

/-- `compile_custom_pattern(pattern).match(name)` viewed on a name string. -/
def is_name_matching (name : List Nat) (pat : List Nat) : Bool :=
  matchUnits (compile_custom_pattern pat) name

/-- `is_declaration_matching` from acpiproxy.py. -/
def is_declaration_matching (declaration : List Nat) (pat : List Nat) : Bool :=
  is_name_matching (hexbytes_to_ascii_name declaration) pat

/-- `filter_declarations` from acpiproxy.py. -/
def filter_declarations (declarations : List (List Nat)) (pat : List Nat) :
    List (List Nat) :=
  declarations.filter (fun x => is_declaration_matching x pat)

/-- `mark_patched` from acpiproxy.py: copy the array and store `'58'`
(ASCII `X`, byte 88) at index `len - 4 + ind`. -/
def mark_patched (byte_arr : List Nat) (ind : Nat) : List Nat :=
  byte_arr.set (byte_arr.length - 4 + ind) 88

/-- One hex digit character code (`'0'`-`'9'` then `'A'`-`'F'`), as produced
by Python's `bytes.hex().upper()`. -/
def hexdigit (n : Nat) : Nat :=
  if n < 10 then 48 + n else 55 + n

/-- The two-character uppercase hex string of one byte. -/
def byte_hex (b : Nat) : List Nat :=
  [hexdigit (b / 16), hexdigit (b % 16)]

/-- `''.join(y)` on a list of two-character hex-byte strings, as a character
code list. -/
def hexjoin (y : List Nat) : List Nat :=
  (y.map byte_hex).flatten

/-- `are_patches_unique` from acpiproxy.py: join each patch into one string
and compare the count of strings with the count of distinct strings
(`len(strpatches) == len(set(strpatches))`, i.e. no duplicates). -/
def are_patches_unique (patches : List (List Nat)) : Bool :=
  decide (patches.map hexjoin).Nodup

end ACPIProxy

namespace ACPIPatchStore

open ACPIProxy

/-- One entry of the `ACPI -> Patch` list of the plist store, with the fields
acpipatch.py constructs and compares (`Comment` and the `Find`/`Replace` byte
strings as character-code lists). -/
structure PatchRecord where
  Comment : List Nat
  Count : Nat
  Limit : Nat
  Skip : Nat
  Enabled : Bool
  Find : List Nat
  Replace : List Nat
deriving DecidableEq, Repr

/-- The `ACPIPatch` class of acpipatch.py: constructed from the find hex-byte
array, the replace hex-byte array and the pattern (all as byte-value lists). -/
structure ACPIPatch where
  finda : List Nat
  replacea : List Nat
  pattern : List Nat
deriving DecidableEq, Repr

/-- `self.findb`: `chr(int(x, 16))` for each hex-byte string, ascii-encoded —
the identity on byte values. -/
def ACPIPatch.findb (p : ACPIPatch) : List Nat := p.finda

/-- `self.replaceb`, as for `findb`. -/
def ACPIPatch.replaceb (p : ACPIPatch) : List Nat := p.replacea

/-- `self.comment`: the character codes of
`f'SSDT-{pattern} {hexbytes_to_ascii_name(finda)} to {hexbytes_to_ascii_name(replacea)}'`
(`SSDT-` is 83,83,68,84,45; space is 32; ` to ` is 32,116,111,32). -/
def ACPIPatch.comment (p : ACPIPatch) : List Nat :=
  [83, 83, 68, 84, 45] ++ p.pattern ++ [32] ++ hexbytes_to_ascii_name p.finda ++
    [32, 116, 111, 32] ++ hexbytes_to_ascii_name p.replacea

/-- `ACPIPatch.cmp` from acpipatch.py. -/
def ACPIPatch.cmp (p : ACPIPatch) (entry : PatchRecord) : Bool :=
  entry.Comment == p.comment && entry.Find == p.findb && entry.Replace == p.replaceb

/-- `ACPIPatch.find_entry` from acpipatch.py: first matching entry of the
`ACPI -> Patch` list, or `None`. -/
def ACPIPatch.find_entry (p : ACPIPatch) (plist : List PatchRecord) :
    Option PatchRecord :=
  plist.find? p.cmp

/-- The record `ACPIPatch.apply` appends when the patch is not yet present. -/
def ACPIPatch.entry (p : ACPIPatch) : PatchRecord :=
  { Comment := p.comment, Count := 0, Limit := 0, Skip := 0, Enabled := true,
    Find := p.findb, Replace := p.replaceb }

/-- `ACPIPatch.apply` from acpipatch.py, on the `ACPI -> Patch` list. -/
def ACPIPatch.apply (p : ACPIPatch) (plist : List PatchRecord) :
    List PatchRecord :=
  match p.find_entry plist with
  | some _ => plist
  | none => plist ++ [p.entry]

/-- `ACPIPatch.undo` from acpipatch.py: `container.pop(container.index(entry))`
removes the first element of the list equal to the found entry. -/
def ACPIPatch.undo (p : ACPIPatch) (plist : List PatchRecord) :
    List PatchRecord :=
  match p.find_entry plist with
  | some e => plist.erase e
  | none => plist

/-- The main loop of acpiproxy.py with `action = 'apply'`: apply each patch in
order. -/
def applyAll (ps : List ACPIPatch) (plist : List PatchRecord) :
    List PatchRecord :=
  ps.foldl (fun s p => p.apply s) plist

/-- The main loop of acpiproxy.py with `action = 'undo'`: undo each patch in
order. -/
def undoAll (ps : List ACPIPatch) (plist : List PatchRecord) :
    List PatchRecord :=
  ps.foldl (fun s p => p.undo s) plist

theorem ACPIPatch.cmp_entry_self (p : ACPIPatch) : p.cmp p.entry = true := by
  simp [ACPIPatch.cmp, ACPIPatch.entry]

theorem ACPIPatch.entry_eq_of_cmp {p q : ACPIPatch}
    (h : p.cmp q.entry = true) : q.entry = p.entry := by
  simp only [ACPIPatch.cmp, ACPIPatch.entry, Bool.and_eq_true, beq_iff_eq] at h
  simp [ACPIPatch.entry, h.1.1, h.1.2, h.2]

theorem find_entry_append (p : ACPIPatch) (l₁ l₂ : List PatchRecord) :
    p.find_entry (l₁ ++ l₂) = (p.find_entry l₁).or (p.find_entry l₂) :=
  List.find?_append

/-- `apply` over a prefix that matches none of the patches only grows the
suffix. -/
theorem applyAll_append_of_no_match :
    ∀ (qs : List ACPIPatch) (S extra : List PatchRecord),
    (∀ p ∈ qs, p.find_entry S = none) →
    applyAll qs (S ++ extra) = S ++ applyAll qs extra := by
  intro qs
  induction qs with
  | nil => intro S extra _; rfl
  | cons q qs ih =>
    intro S extra h
    have hq : q.find_entry S = none := h q (List.mem_cons_self q qs)
    have hstep : q.apply (S ++ extra) = S ++ q.apply extra := by
      unfold ACPIPatch.apply
      rw [find_entry_append, hq, Option.none_or]
      cases h2 : q.find_entry extra with
      | some e => rfl
      | none => simp [List.append_assoc]
    show applyAll qs (q.apply (S ++ extra)) = S ++ applyAll qs (q.apply extra)
    rw [hstep]
    exact ih S (q.apply extra) (fun p hp => h p (List.mem_cons_of_mem q hp))

/-- `undo` over a prefix that matches none of the patches removes only from
the suffix. -/
theorem undoAll_append_of_no_match :
    ∀ (qs : List ACPIPatch) (S extra : List PatchRecord),
    (∀ p ∈ qs, p.find_entry S = none) →
    undoAll qs (S ++ extra) = S ++ undoAll qs extra := by
  intro qs
  induction qs with
  | nil => intro S extra _; rfl
  | cons q qs ih =>
    intro S extra h
    have hq : q.find_entry S = none := h q (List.mem_cons_self q qs)
    have hstep : q.undo (S ++ extra) = S ++ q.undo extra := by
      unfold ACPIPatch.undo
      rw [find_entry_append, hq, Option.none_or]
      cases h2 : q.find_entry extra with
      | none => rfl
      | some e =>
        have hcmp : q.cmp e = true := List.find?_some h2
        have heS : e ∉ S := fun hmem => (List.find?_eq_none.mp hq e hmem) hcmp
        exact List.erase_append_right extra heS
    show undoAll qs (q.undo (S ++ extra)) = S ++ undoAll qs (q.undo extra)
    rw [hstep]
    exact ih S (q.undo extra) (fun p hp => h p (List.mem_cons_of_mem q hp))

/-- `apply` keeps a duplicate-free list of constructed entries duplicate-free
and adds only entries of the applied patches. -/
theorem applyAll_nodup_and_mem :
    ∀ (qs : List ACPIPatch) (S : List PatchRecord), S.Nodup →
    (applyAll qs S).Nodup ∧
      ∀ e ∈ applyAll qs S, e ∈ S ∨ ∃ q ∈ qs, e = q.entry := by
  intro qs
  induction qs with
  | nil => intro S h; exact ⟨h, fun e he => Or.inl he⟩
  | cons q qs ih =>
    intro S hnd
    have hmain : (q.apply S).Nodup ∧
        ∀ e ∈ q.apply S, e ∈ S ∨ e = q.entry := by
      unfold ACPIPatch.apply
      cases h : q.find_entry S with
      | some e => exact ⟨hnd, fun e he => Or.inl he⟩
      | none =>
        have hnotmem : q.entry ∉ S := fun hmem =>
          (List.find?_eq_none.mp h q.entry hmem) (ACPIPatch.cmp_entry_self q)
        refine ⟨?_, ?_⟩
        · refine List.nodup_append.mpr ⟨hnd, List.nodup_singleton _, ?_⟩
          intro a ha hb
          rw [List.mem_singleton] at hb
          exact hnotmem (hb ▸ ha)
        · intro e he
          rcases List.mem_append.mp he with h1 | h1
          · exact Or.inl h1
          · exact Or.inr (List.mem_singleton.mp h1)
    have := ih (q.apply S) hmain.1
    refine ⟨this.1, fun e he => ?_⟩
    rcases this.2 e he with h1 | ⟨r, hr, he'⟩
    · rcases hmain.2 e h1 with h2 | h2
      · exact Or.inl h2
      · exact Or.inr ⟨q, List.mem_cons_self q qs, h2⟩
    · exact Or.inr ⟨r, List.mem_cons_of_mem q hr, he'⟩

/-- `undo` with every patch of the list empties a duplicate-free list all of
whose records are entries of those patches. -/
theorem undoAll_eq_nil :
    ∀ (qs : List ACPIPatch) (S : List PatchRecord), S.Nodup →
    (∀ e ∈ S, ∃ q ∈ qs, e = q.entry) → undoAll qs S = [] := by
  intro qs
  induction qs with
  | nil =>
    intro S _ hall
    have : S = [] := List.eq_nil_iff_forall_not_mem.mpr (fun e he => by
      rcases hall e he with ⟨q, hq, _⟩
      simp at hq)
    simp [this, undoAll]
  | cons q qs ih =>
    intro S hnd hall
    show undoAll qs (q.undo S) = []
    unfold ACPIPatch.undo
    cases h : q.find_entry S with
    | none =>
      refine ih S hnd (fun e he => ?_)
      rcases hall e he with ⟨r, hr, he'⟩
      rcases List.mem_cons.mp hr with rfl | hr'
      · exact ((List.find?_eq_none.mp h e he)
          (by rw [he']; exact ACPIPatch.cmp_entry_self r)).elim
      · exact ⟨r, hr', he'⟩
    | some e =>
      have hmem : e ∈ S := List.mem_of_find?_eq_some h
      have hcmp : q.cmp e = true := List.find?_some h
      have hee : e = q.entry := by
        rcases hall e hmem with ⟨r, _, he'⟩
        subst he'
        exact ACPIPatch.entry_eq_of_cmp hcmp
      refine ih (S.erase e) (hnd.erase e) (fun x hx => ?_)
      rcases (hnd.mem_erase_iff).mp hx with ⟨hxe, hxS⟩
      rcases hall x hxS with ⟨r, hr, hx'⟩
      rcases List.mem_cons.mp hr with rfl | hr'
      · exact absurd (hx'.trans hee.symm) hxe
      · exact ⟨r, hr', hx'⟩

end ACPIPatchStore

namespace ACPIProxy

open ACPIPatchStore

/-- The index-search loop of `main` (acpiproxy.py lines 246-256): for
`x_ind in range(0, 3)` build the case where every declaration is marked at
`x_ind`, keep the first case that is unique, else keep the initial `[]`. -/
def pick_patches (declarations : List (List Nat)) : List (List Nat) :=
  match (List.range 3).find?
      (fun i => are_patches_unique (declarations.map (fun x => mark_patched x i))) with
  | some i => declarations.map (fun x => mark_patched x i)
  | none => []

/-- The patch-construction step of `main` (acpiproxy.py line 259):
`[ACPIPatch(declarations[x], patches[x], pattern) for x in range(0, len(declarations))]`.
Indexing is fallible (`patches[x]` raises `IndexError` when out of range), so
the step returns `none` exactly when some index access fails. -/
def build_patches (pat : List Nat) (declarations : List (List Nat))
    (patches : List (List Nat)) : Option (List ACPIPatch) :=
  (List.range declarations.length).mapM (fun x => do
    let d ← declarations[x]?
    let pb ← patches[x]?
    pure (ACPIPatch.mk d pb pat))

/-- The Patch Synthesizer of `main` (acpiproxy.py lines 246-259): the
index-search loop followed by patch construction. -/
def synthesize (pat : List Nat) (declarations : List (List Nat)) :
    Option (List ACPIPatch) :=
  build_patches pat declarations (pick_patches declarations)

theorem mapM_option_eq_some_map {α β : Type} (f : α → Option β) (g : α → β) :
    ∀ (l : List α), (∀ x ∈ l, f x = some (g x)) → l.mapM f = some (l.map g) := by
  intro l
  induction l with
  | nil => intro _; rfl
  | cons a l ih =>
    intro h
    rw [List.mapM_cons, h a (List.mem_cons_self a l),
      ih (fun x hx => h x (List.mem_cons_of_mem a hx))]
    rfl

theorem mapM_option_eq_none {α β : Type} (f : α → Option β) :
    ∀ (l : List α) (x : α), x ∈ l → f x = none → l.mapM f = none := by
  intro l
  induction l with
  | nil => intro x hx; simp at hx
  | cons a l ih =>
    intro x hx hfx
    rw [List.mapM_cons]
    rcases List.mem_cons.mp hx with rfl | hx'
    · rw [hfx]; rfl
    · cases hfa : f a with
      | none => rfl
      | some b => rw [ih x hx' hfx]; rfl

theorem getElem?_eq_some_getD {α : Type} [Inhabited α] (l : List α) (x : Nat)
    (d : α) (h : x < l.length) : l[x]? = some (l.getD x d) := by
  rw [List.getD_eq_getElem?_getD, List.getElem?_eq_getElem h]
  rfl

theorem build_patches_eq_some (pat : List Nat) (decls patches : List (List Nat))
    (h : patches.length = decls.length) :
    build_patches pat decls patches =
      some ((List.range decls.length).map
        (fun x => ACPIPatchStore.ACPIPatch.mk (decls.getD x []) (patches.getD x []) pat)) := by
  unfold build_patches
  apply mapM_option_eq_some_map
  intro x hx
  have hx' : x < decls.length := List.mem_range.mp hx
  rw [getElem?_eq_some_getD decls x [] hx', getElem?_eq_some_getD patches x [] (by omega)]
  rfl

theorem pick_patches_eq_of_unique_zero (decls : List (List Nat))
    (h : are_patches_unique (decls.map (fun x => mark_patched x 0)) = true) :
    pick_patches decls = decls.map (fun x => mark_patched x 0) := by
  unfold pick_patches
  have hfind : List.find?
      (fun i => are_patches_unique (decls.map (fun x => mark_patched x i)))
      [0, 1, 2] = some 0 := List.find?_cons_of_pos _ h
  rw [show List.range 3 = [0, 1, 2] from rfl, hfind]

theorem pick_patches_eq_nil (decls : List (List Nat))
    (h : ∀ i < 3, are_patches_unique (decls.map (fun x => mark_patched x i)) = false) :
    pick_patches decls = [] := by
  unfold pick_patches
  rw [List.find?_eq_none.mpr (fun i hi => by
    simp [h i (List.mem_range.mp hi)])]

theorem synthesize_eq_none (pat : List Nat) (decls : List (List Nat))
    (hne : decls ≠ [])
    (h : ∀ i < 3, are_patches_unique (decls.map (fun x => mark_patched x i)) = false) :
    synthesize pat decls = none := by
  unfold synthesize
  rw [pick_patches_eq_nil decls h]
  unfold build_patches
  apply mapM_option_eq_none _ _ 0
  · rw [List.mem_range]
    exact List.length_pos.mpr hne
  · cases hd : decls[0]? <;> rfl

theorem hexdigit_inj {m n : Nat} (h : hexdigit m = hexdigit n) : m = n := by
  unfold hexdigit at h
  split at h <;> split at h <;> omega

theorem byte_hex_inj {a b : Nat} (h : byte_hex a = byte_hex b) : a = b := by
  unfold byte_hex at h
  injection h with h1 h2
  injection h2 with h2 _
  have e1 := hexdigit_inj h1
  have e2 := hexdigit_inj h2
  omega

theorem hexjoin_inj : ∀ {y z : List Nat}, hexjoin y = hexjoin z → y = z := by
  intro y
  induction y with
  | nil =>
    intro z h
    cases z with
    | nil => rfl
    | cons b z => simp [hexjoin, byte_hex] at h
  | cons a y ih =>
    intro z h
    cases z with
    | nil => simp [hexjoin, byte_hex] at h
    | cons b z =>
      simp only [hexjoin, List.map_cons, List.flatten_cons, byte_hex,
        List.cons_append, List.nil_append] at h
      injection h with h1 h
      injection h with h2 h
      have hab : a = b := by
        have e1 := hexdigit_inj h1
        have e2 := hexdigit_inj h2
        omega
      have htail : y = z := ih (show hexjoin y = hexjoin z from h)
      rw [hab, htail]

theorem are_patches_unique_iff (patches : List (List Nat)) :
    are_patches_unique patches = true ↔ patches.Nodup := by
  unfold are_patches_unique
  rw [decide_eq_true_iff]
  constructor
  · intro h
    exact h.of_map hexjoin
  · intro h
    exact h.map (fun a b hab => hexjoin_inj hab)

theorem mark_patched_length (d : List Nat) (i : Nat) :
    (mark_patched d i).length = d.length := by
  unfold mark_patched
  exact List.length_set d _ 88

theorem mark_patched_lastByte (d : List Nat) (h4 : 4 ≤ d.length) :
    (mark_patched d 0).getD (d.length - 1) 0 = d.getD (d.length - 1) 0 := by
  unfold mark_patched
  rw [List.getD_eq_getElem?_getD, List.getD_eq_getElem?_getD,
    List.getElem?_set_ne (by omega)]

theorem name_getD_three (d : List Nat) (h4 : 4 ≤ d.length) :
    (hexbytes_to_ascii_name d).getD 3 0 = d.getD (d.length - 1) 0 := by
  unfold hexbytes_to_ascii_name
  rw [List.getD_eq_getElem?_getD, List.getD_eq_getElem?_getD,
    List.getElem?_drop, show d.length - 4 + 3 = d.length - 1 by omega]

theorem mark_patched_getD (d : List Nat) (i : Nat) (hi : i < 3)
    (h4 : 4 ≤ d.length) (j : Nat) (hj : j < d.length) :
    (mark_patched d i).getD j 0 =
      if j = d.length - 4 + i then 88 else d.getD j 0 := by
  unfold mark_patched
  rw [List.getD_eq_getElem?_getD, List.getD_eq_getElem?_getD]
  by_cases hji : j = d.length - 4 + i
  · subst hji
    rw [if_pos rfl, List.getElem?_set_self (by omega)]
    rfl
  · rw [if_neg hji, List.getElem?_set_ne (fun hc => hji hc.symm)]

/-- The character class of `main`'s pattern validation regex
`[A-Z0-9_+!\-@?*]`. -/
def is_allowed_pattern_char (c : Nat) : Bool :=
  (65 ≤ c && c ≤ 90) || (48 ≤ c && c ≤ 57) || c == 95 ||
  c == 43 || c == 33 || c == 45 || c == 64 || c == 63 || c == 42

/-- Decimal digit character, as worded by the specification. -/
def is_digit_code (c : Nat) : Bool := 48 ≤ c && c ≤ 57

/-- Uppercase letter character, as worded by the specification. -/
def is_upper_code (c : Nat) : Bool := 65 ≤ c && c ≤ 90

/-- The specification's per-character mask translation table, stated from its
words: `+` any digit, `!` digit or `_`, `-` any uppercase letter, `@`
uppercase letter or `_`, `?` uppercase letter or digit, `*` uppercase letter,
digit or `_`, and any other character matched literally, case-sensitively. -/
def spec_mask_matches (p c : Nat) : Bool :=
  if p = 43 then is_digit_code c
  else if p = 33 then is_digit_code c || c == 95
  else if p = 45 then is_upper_code c
  else if p = 64 then is_upper_code c || c == 95
  else if p = 63 then is_upper_code c || is_digit_code c
  else if p = 42 then is_upper_code c || is_digit_code c || c == 95
  else c == p

theorem translate_pattern_char_eq_spec (p c : Nat) :
    translate_pattern_char p c = spec_mask_matches p c := by
  unfold translate_pattern_char spec_mask_matches is_digit_code is_upper_code
  repeat' first | rfl | split

theorem allowed_pattern_char_no_lower (p c : Nat)
    (hp : is_allowed_pattern_char p = true) (hc1 : 97 ≤ c) (hc2 : c ≤ 122) :
    translate_pattern_char p c = false := by
  simp only [is_allowed_pattern_char, Bool.or_eq_true, Bool.and_eq_true,
    decide_eq_true_eq, beq_iff_eq] at hp
  unfold translate_pattern_char
  rcases hp with (((((((⟨h1, h2⟩ | ⟨h1, h2⟩) | h) | h) | h) | h) | h) | h) | h <;>
    subst_vars <;> repeat' split
  all_goals
    refine Bool.eq_false_iff.mpr (fun hX => ?_)
    simp only [Bool.and_eq_true, Bool.or_eq_true, decide_eq_true_eq,
      beq_iff_eq] at hX
    omega

theorem matchUnits_lower_false :
    ∀ (ps ns : List Nat), ns.length ≤ ps.length →
    (∀ p ∈ ps, is_allowed_pattern_char p = true) →
    (∃ c ∈ ns, 97 ≤ c ∧ c ≤ 122) →
    matchUnits (ps.map translate_pattern_char) ns = false := by
  intro ps
  induction ps with
  | nil =>
    intro ns hlen _ hex
    have hns : ns = [] := List.eq_nil_of_length_eq_zero
      (Nat.le_zero.mp (by simpa using hlen))
    subst hns
    simp at hex
  | cons p ps ih =>
    intro ns hlen hall hex
    match ns with
    | [] => simp at hex
    | c :: ns' =>
      simp only [List.map_cons, matchUnits, Bool.and_eq_false_iff]
      rcases hex with ⟨c0, hc0mem, hc0⟩
      rcases List.mem_cons.mp hc0mem with rfl | hmem
      · exact Or.inl (allowed_pattern_char_no_lower p c0
          (hall p (List.mem_cons_self p ps)) hc0.1 hc0.2)
      · exact Or.inr (ih ns' (by simpa using hlen)
          (fun q hq => hall q (List.mem_cons_of_mem p hq)) ⟨c0, hmem, hc0⟩)

end ACPIProxy

namespace ACPIProxyClaims

open ACPIProxy ACPIPatchStore

/-- C6: for every 4-character pattern over the allowed alphabet and every
4-character name, the compiled matcher accepts the name if and only if each of
the 4 name characters independently satisfies its mask character per the
translation table (`+` any digit; `!` digit or `_`; `-` any uppercase letter;
`@` uppercase letter or `_`; `?` uppercase letter or digit; `*` uppercase
letter, digit or `_`; any other character matched literally,
case-sensitively). -/
theorem C6_matcher_equiv_table (p0 p1 p2 p3 n0 n1 n2 n3 : Nat)
    (h0 : is_allowed_pattern_char p0 = true)
    (h1 : is_allowed_pattern_char p1 = true)
    (h2 : is_allowed_pattern_char p2 = true)
    (h3 : is_allowed_pattern_char p3 = true) :
    is_name_matching [n0, n1, n2, n3] [p0, p1, p2, p3] =
      (spec_mask_matches p0 n0 && spec_mask_matches p1 n1 &&
        spec_mask_matches p2 n2 && spec_mask_matches p3 n3) := by
  simp only [is_name_matching, compile_custom_pattern, List.map_cons,
    List.map_nil, matchUnits, translate_pattern_char_eq_spec, Bool.and_true]
  cases spec_mask_matches p0 n0 <;> cases spec_mask_matches p1 n1 <;>
    cases spec_mask_matches p2 n2 <;> cases spec_mask_matches p3 n3 <;> rfl

/-- C6 witness: the pattern `OC++` (codes 79, 67, 43, 43) against the name
`OC01`; also checks the claim's examples `OC01`, `OC99` match and `OCAB` does
not. -/
theorem C6_matcher_equiv_table_witness :
    (is_name_matching [79, 67, 48, 49] [79, 67, 43, 43] =
      (spec_mask_matches 79 79 && spec_mask_matches 67 67 &&
        spec_mask_matches 43 48 && spec_mask_matches 43 49)) ∧
    is_name_matching [79, 67, 48, 49] [79, 67, 43, 43] = true ∧
    is_name_matching [79, 67, 57, 57] [79, 67, 43, 43] = true ∧
    is_name_matching [79, 67, 65, 66] [79, 67, 43, 43] = false :=
  ⟨C6_matcher_equiv_table 79 67 43 43 79 67 48 49
      (by decide) (by decide) (by decide) (by decide),
    by decide, by decide, by decide⟩

/-- C10: the scanner accepts lowercase letters in names, but every wildcard
symbol compiles to an uppercase-only class and every literal character of a
valid pattern is uppercase, a digit, or underscore, so a scanned declaration
whose name contains a lowercase letter is matched by no valid pattern and is
always removed by the filter. -/
theorem C10_lowercase_never_matches (declarations : List (List Nat))
    (pat : List Nat) (d : List Nat)
    (hlen : pat.length = 4)
    (hpat : ∀ p ∈ pat, is_allowed_pattern_char p = true)
    (hlow : ∃ c ∈ hexbytes_to_ascii_name d, 97 ≤ c ∧ c ≤ 122) :
    is_declaration_matching d pat = false ∧
      d ∉ filter_declarations declarations pat := by
  have hname : (hexbytes_to_ascii_name d).length ≤ pat.length := by
    simp only [hexbytes_to_ascii_name, List.length_drop]
    omega
  have hfalse : is_declaration_matching d pat = false :=
    matchUnits_lower_false pat (hexbytes_to_ascii_name d) hname hpat hlow
  refine ⟨hfalse, fun hmem => ?_⟩
  have := (List.mem_filter.mp hmem).2
  rw [hfalse] at this
  exact Bool.false_ne_true this

/-- C7: for every plist store and every patch descriptor, apply followed by
apply again yields a store identical to a single apply; apply appends a record
with defaults Count=0, Limit=0, Skip=0, Enabled=true only when no record with
equal (Comment, Find, Replace) already exists, and otherwise leaves the store
unchanged, so no duplicate records are ever created. -/
theorem C7_apply_idempotent (plist : List PatchRecord) (p : ACPIPatch) :
    p.apply (p.apply plist) = p.apply plist ∧
    (p.find_entry plist = none →
      p.apply plist = plist ++
        [{ Comment := p.comment, Count := 0, Limit := 0, Skip := 0,
           Enabled := true, Find := p.findb, Replace := p.replaceb }]) ∧
    ((p.find_entry plist).isSome → p.apply plist = plist) := by
  refine ⟨?_, ?_, ?_⟩
  · unfold ACPIPatch.apply
    cases h : p.find_entry plist with
    | some e => rw [h]
    | none =>
      have : p.find_entry (plist ++ [p.entry]) = some p.entry := by
        rw [ACPIPatchStore.find_entry_append, h, Option.none_or,
          ACPIPatch.find_entry, List.find?_cons_of_pos _ (ACPIPatch.cmp_entry_self p)]
      rw [this]
  · intro h
    unfold ACPIPatch.apply
    rw [h]
    rfl
  · intro h
    unfold ACPIPatch.apply
    cases h2 : p.find_entry plist with
    | some e => rfl
    | none => rw [h2] at h; simp at h

/-- C7 witness: a concrete descriptor applied twice to the empty
`ACPI -> Patch` list. -/
theorem C7_apply_idempotent_witness :
    (ACPIPatch.apply ⟨[20, 0, 65, 66, 67, 49], [20, 0, 88, 66, 67, 49], [65, 66, 67, 43]⟩
        (ACPIPatch.apply ⟨[20, 0, 65, 66, 67, 49], [20, 0, 88, 66, 67, 49], [65, 66, 67, 43]⟩ []) =
      ACPIPatch.apply ⟨[20, 0, 65, 66, 67, 49], [20, 0, 88, 66, 67, 49], [65, 66, 67, 43]⟩ []) ∧
    (ACPIPatch.find_entry ⟨[20, 0, 65, 66, 67, 49], [20, 0, 88, 66, 67, 49], [65, 66, 67, 43]⟩ [] = none →
      ACPIPatch.apply ⟨[20, 0, 65, 66, 67, 49], [20, 0, 88, 66, 67, 49], [65, 66, 67, 43]⟩ [] =
        [] ++ [{ Comment := ACPIPatch.comment ⟨[20, 0, 65, 66, 67, 49], [20, 0, 88, 66, 67, 49], [65, 66, 67, 43]⟩,
                 Count := 0, Limit := 0, Skip := 0, Enabled := true,
                 Find := ACPIPatch.findb ⟨[20, 0, 65, 66, 67, 49], [20, 0, 88, 66, 67, 49], [65, 66, 67, 43]⟩,
                 Replace := ACPIPatch.replaceb ⟨[20, 0, 65, 66, 67, 49], [20, 0, 88, 66, 67, 49], [65, 66, 67, 43]⟩ }]) ∧
    ((ACPIPatch.find_entry ⟨[20, 0, 65, 66, 67, 49], [20, 0, 88, 66, 67, 49], [65, 66, 67, 43]⟩ []).isSome →
      ACPIPatch.apply ⟨[20, 0, 65, 66, 67, 49], [20, 0, 88, 66, 67, 49], [65, 66, 67, 43]⟩ [] = []) :=
  C7_apply_idempotent [] ⟨[20, 0, 65, 66, 67, 49], [20, 0, 88, 66, 67, 49], [65, 66, 67, 43]⟩

/-- C3 counterexample: a store that already contains the descriptor's record
before apply.  `apply` is then a no-op but `undo` removes the pre-existing
record, so undo-after-apply does not return the store to its pre-apply
content. -/
theorem C3_counterexample :
    undoAll [⟨[20, 0, 65, 66, 67, 49], [20, 0, 88, 66, 67, 49], [65, 66, 67, 43]⟩]
        (applyAll [⟨[20, 0, 65, 66, 67, 49], [20, 0, 88, 66, 67, 49], [65, 66, 67, 43]⟩]
          [ACPIPatch.entry ⟨[20, 0, 65, 66, 67, 49], [20, 0, 88, 66, 67, 49], [65, 66, 67, 43]⟩]) ≠
      [ACPIPatch.entry ⟨[20, 0, 65, 66, 67, 49], [20, 0, 88, 66, 67, 49], [65, 66, 67, 43]⟩] := by
  decide

/-- C3 (amended): for every plist store and every list of patch descriptors
NONE of whose records is already present in the store, running undo on each
descriptor after running apply on each descriptor returns the store to exactly
its pre-apply content.  (The original claim extended this to stores that
already contained some of the descriptors' records; `C3_counterexample` shows
that case fails, because apply is a no-op there while undo removes the
pre-existing record.) -/
theorem C3_undo_after_apply (store : List PatchRecord) (ps : List ACPIPatch)
    (h : ∀ p ∈ ps, p.find_entry store = none) :
    undoAll ps (applyAll ps store) = store := by
  have h1 : applyAll ps store = store ++ applyAll ps [] := by
    have := applyAll_append_of_no_match ps store [] h
    simpa using this
  have h2 := applyAll_nodup_and_mem ps [] List.nodup_nil
  have h3 : undoAll ps (applyAll ps []) = [] :=
    undoAll_eq_nil ps _ h2.1 (fun e he => (h2.2 e he).resolve_left (by simp))
  rw [h1, undoAll_append_of_no_match ps store _ h, h3, List.append_nil]

/-- C3 witness: a store holding one unrelated record, and two fresh
descriptors applied then undone. -/
theorem C3_undo_after_apply_witness :
    (∀ p ∈ [(⟨[20, 0, 65, 66, 67, 49], [20, 0, 88, 66, 67, 49], [65, 66, 67, 43]⟩ : ACPIPatch),
            ⟨[20, 0, 65, 66, 67, 50], [20, 0, 88, 66, 67, 50], [65, 66, 67, 43]⟩],
        p.find_entry [⟨[79, 116, 104, 101, 114], 1, 2, 3, false, [1], [2]⟩] = none) ∧
    undoAll [⟨[20, 0, 65, 66, 67, 49], [20, 0, 88, 66, 67, 49], [65, 66, 67, 43]⟩,
             ⟨[20, 0, 65, 66, 67, 50], [20, 0, 88, 66, 67, 50], [65, 66, 67, 43]⟩]
        (applyAll [⟨[20, 0, 65, 66, 67, 49], [20, 0, 88, 66, 67, 49], [65, 66, 67, 43]⟩,
                   ⟨[20, 0, 65, 66, 67, 50], [20, 0, 88, 66, 67, 50], [65, 66, 67, 43]⟩]
          [⟨[79, 116, 104, 101, 114], 1, 2, 3, false, [1], [2]⟩]) =
      [⟨[79, 116, 104, 101, 114], 1, 2, 3, false, [1], [2]⟩] :=
  ⟨by decide,
    C3_undo_after_apply [⟨[79, 116, 104, 101, 114], 1, 2, 3, false, [1], [2]⟩]
      [⟨[20, 0, 65, 66, 67, 49], [20, 0, 88, 66, 67, 49], [65, 66, 67, 43]⟩,
       ⟨[20, 0, 65, 66, 67, 50], [20, 0, 88, 66, 67, 50], [65, 66, 67, 43]⟩]
      (by decide)⟩

/-- C10 witness: declaration bytes 20, 0, 97, 66, 67, 49 (name `aBC1`,
lowercase `a`) against the valid pattern `ABC+`. -/
theorem C10_lowercase_never_matches_witness :
    is_declaration_matching [20, 0, 97, 66, 67, 49] [65, 66, 67, 43] = false ∧
      [20, 0, 97, 66, 67, 49] ∉
        filter_declarations [[20, 0, 97, 66, 67, 49]] [65, 66, 67, 43] :=
  C10_lowercase_never_matches [[20, 0, 97, 66, 67, 49]] [65, 66, 67, 43]
    [20, 0, 97, 66, 67, 49] (by decide) (by decide) (by decide)

/-- C1 counterexample: two identical matched declarations (names `ABCD`).  No
marker index in {0,1,2} makes the marked sequences pairwise distinct, yet the
synthesizer's output is not an empty patch list: the patch-construction step
fails with an out-of-range index access (`none`, modelling the uncaught
`IndexError` of `patches[x]`), so the run is not a silent no-op. -/
theorem C1_counterexample :
    (([[20, 0, 65, 66, 67, 68], [20, 0, 65, 66, 67, 68]] : List (List Nat)) ≠ []) ∧
    (∀ i < 3, are_patches_unique
      (([[20, 0, 65, 66, 67, 68], [20, 0, 65, 66, 67, 68]] : List (List Nat)).map
        (fun x => mark_patched x i)) = false) ∧
    synthesize [65, 66, 67, 43] [[20, 0, 65, 66, 67, 68], [20, 0, 65, 66, 67, 68]] ≠
      some [] ∧
    synthesize [65, 66, 67, 43] [[20, 0, 65, 66, 67, 68], [20, 0, 65, 66, 67, 68]] =
      none := by
  decide

/-- C1 (amended): if the matched declaration set is non-empty and no marker
index i in {0,1,2} makes the set of marked byte sequences pairwise distinct,
the index-search loop does leave the candidate list empty, but the
synthesizer's patch-construction step then performs an out-of-range list
index access (an uncaught `IndexError`), so the synthesizer aborts instead of
silently producing an empty patch list. -/
theorem C1_no_unique_index_aborts (pat : List Nat) (decls : List (List Nat))
    (hne : decls ≠ [])
    (h : ∀ i < 3, are_patches_unique (decls.map (fun x => mark_patched x i)) = false) :
    pick_patches decls = [] ∧ synthesize pat decls = none :=
  ⟨pick_patches_eq_nil decls h, synthesize_eq_none pat decls hne h⟩

/-- C1 witness: the amended theorem applied to the two identical
declarations. -/
theorem C1_no_unique_index_aborts_witness :
    pick_patches [[20, 0, 65, 66, 67, 68], [20, 0, 65, 66, 67, 68]] = [] ∧
    synthesize [65, 66, 67, 43] [[20, 0, 65, 66, 67, 68], [20, 0, 65, 66, 67, 68]] =
      none :=
  C1_no_unique_index_aborts [65, 66, 67, 43]
    [[20, 0, 65, 66, 67, 68], [20, 0, 65, 66, 67, 68]] (by decide) (by decide)

/-- C4 counterexample: declarations with names `ABC1` and `ABC2`, which agree
at name positions 0, 1, 2 and differ only in the last character.  The
synthesizer does NOT degrade to an empty patch list: marking index 0 keeps the
sequences distinct (they still differ in the last byte), so synthesis succeeds
at index 0 with one patch per declaration. -/
theorem C4_counterexample :
    hexbytes_to_ascii_name [20, 0, 65, 66, 67, 49] = [65, 66, 67, 49] ∧
    hexbytes_to_ascii_name [20, 0, 65, 66, 67, 50] = [65, 66, 67, 50] ∧
    pick_patches [[20, 0, 65, 66, 67, 49], [20, 0, 65, 66, 67, 50]] =
      [[20, 0, 88, 66, 67, 49], [20, 0, 88, 66, 67, 50]] ∧
    synthesize [65, 66, 67, 43] [[20, 0, 65, 66, 67, 49], [20, 0, 65, 66, 67, 50]] =
      some [⟨[20, 0, 65, 66, 67, 49], [20, 0, 88, 66, 67, 49], [65, 66, 67, 43]⟩,
            ⟨[20, 0, 65, 66, 67, 50], [20, 0, 88, 66, 67, 50], [65, 66, 67, 43]⟩] := by
  decide

/-- C4 (amended): if the matched declarations' names agree at positions 0, 1
and 2 and differ pairwise in the last character, the synthesizer SUCCEEDS at
the first tried index 0 — the marked sequences remain pairwise distinct
because they still differ in the last byte — and produces one patch per
declaration, never degrading to an empty patch list for a non-empty matched
set. -/
theorem C4_last_char_distinct_succeeds (decls : List (List Nat))
    (hlen : ∀ d ∈ decls, 4 ≤ d.length)
    (hpair : decls.Pairwise (fun d e =>
      (hexbytes_to_ascii_name d).take 3 = (hexbytes_to_ascii_name e).take 3 ∧
      (hexbytes_to_ascii_name d).getD 3 0 ≠ (hexbytes_to_ascii_name e).getD 3 0)) :
    are_patches_unique (decls.map (fun x => mark_patched x 0)) = true ∧
    pick_patches decls = decls.map (fun x => mark_patched x 0) ∧
    ∀ pat, decls ≠ [] → synthesize pat decls ≠ some [] := by
  have huniq : are_patches_unique (decls.map (fun x => mark_patched x 0)) = true := by
    rw [are_patches_unique_iff]
    refine List.pairwise_map.mpr (hpair.imp_of_mem ?_)
    intro d e hd he hr heq
    have h4d : 4 ≤ d.length := hlen d hd
    have h4e : 4 ≤ e.length := hlen e he
    have hlen' : d.length = e.length := by
      have := congrArg List.length heq
      rwa [mark_patched_length, mark_patched_length] at this
    have hlast : d.getD (d.length - 1) 0 = e.getD (e.length - 1) 0 := by
      rw [← mark_patched_lastByte d h4d, ← mark_patched_lastByte e h4e, heq, hlen']
    exact hr.2 (by rw [name_getD_three d h4d, name_getD_three e h4e, hlast])
  have hpick := pick_patches_eq_of_unique_zero decls huniq
  refine ⟨huniq, hpick, fun pat hne hcon => ?_⟩
  rw [synthesize, hpick,
    build_patches_eq_some pat decls _ (List.length_map decls _)] at hcon
  have := Option.some.inj hcon
  have hlen0 := congrArg List.length this
  rw [List.length_map, List.length_range, List.length_nil] at hlen0
  exact hne (List.eq_nil_of_length_eq_zero hlen0)

/-- C4 witness: the amended theorem applied to the `ABC1`/`ABC2`
declarations. -/
theorem C4_last_char_distinct_succeeds_witness :
    are_patches_unique
      (([[20, 0, 65, 66, 67, 49], [20, 0, 65, 66, 67, 50]] : List (List Nat)).map
        (fun x => mark_patched x 0)) = true ∧
    pick_patches [[20, 0, 65, 66, 67, 49], [20, 0, 65, 66, 67, 50]] =
      ([[20, 0, 65, 66, 67, 49], [20, 0, 65, 66, 67, 50]] : List (List Nat)).map
        (fun x => mark_patched x 0) ∧
    ∀ pat, ([[20, 0, 65, 66, 67, 49], [20, 0, 65, 66, 67, 50]] : List (List Nat)) ≠ [] →
      synthesize pat [[20, 0, 65, 66, 67, 49], [20, 0, 65, 66, 67, 50]] ≠ some [] :=
  C4_last_char_distinct_succeeds [[20, 0, 65, 66, 67, 49], [20, 0, 65, 66, 67, 50]]
    (by decide) (by decide)

/-- C8: for every synthesized patch descriptor, replaceBytes has the same
length as findBytes and equals findBytes at every byte position except the
single chosen name index (position length-4+i for the uniformly chosen
i in {0,1,2}), where the byte is the marker character X (0x58 = 88); the other
3 name bytes and all non-name bytes are unchanged. -/
theorem C8_replace_frame (pat : List Nat) (decls : List (List Nat))
    (ps : List ACPIPatch)
    (hlen : ∀ d ∈ decls, 4 ≤ d.length)
    (hsyn : synthesize pat decls = some ps) :
    ∃ i < 3, ∀ p ∈ ps,
      p.finda ∈ decls ∧
      p.replacea.length = p.finda.length ∧
      ∀ j < p.finda.length,
        p.replacea.getD j 0 =
          if j = p.finda.length - 4 + i then 88 else p.finda.getD j 0 := by
  rcases hfind : (List.range 3).find?
      (fun i => are_patches_unique (decls.map (fun x => mark_patched x i))) with _ | i
  · -- no unique index: pick_patches is [], so synthesis can only succeed on []
    have hpick : pick_patches decls = [] := by
      unfold pick_patches
      rw [hfind]
    rcases hdec : decls with _ | ⟨d, decls'⟩
    · refine ⟨0, by omega, fun p hp => ?_⟩
      subst hdec
      rw [synthesize, hpick] at hsyn
      have : ps = [] := by
        have := Option.some.inj hsyn.symm
        simpa [build_patches] using this.symm
      subst this
      simp at hp
    · exfalso
      rw [synthesize, hpick] at hsyn
      rw [show build_patches pat decls [] = none from ?_] at hsyn
      · exact Option.noConfusion hsyn
      · unfold build_patches
        apply mapM_option_eq_none _ _ 0
        · rw [List.mem_range, hdec]
          simp
        · cases hd : decls[0]? <;> rfl
  · -- a unique index i was found
    have hi3 : i < 3 := List.mem_range.mp (List.mem_of_find?_eq_some hfind)
    have hpick : pick_patches decls = decls.map (fun x => mark_patched x i) := by
      unfold pick_patches
      rw [hfind]
    rw [synthesize, hpick,
      build_patches_eq_some pat decls _ (List.length_map decls _)] at hsyn
    have hps := Option.some.inj hsyn
    refine ⟨i, hi3, fun p hp => ?_⟩
    rw [← hps] at hp
    rcases List.mem_map.mp hp with ⟨x, hx, hpx⟩
    have hxlt : x < decls.length := List.mem_range.mp hx
    have hfa : p.finda = decls.getD x [] := by rw [← hpx]
    have hra : p.replacea = mark_patched (decls.getD x []) i := by
      rw [← hpx]
      show (decls.map (fun y => mark_patched y i)).getD x [] = _
      rw [List.getD_eq_getElem?_getD, List.getElem?_map,
        List.getElem?_eq_getElem hxlt, List.getD_eq_getElem?_getD,
        List.getElem?_eq_getElem hxlt]
      rfl
    have hmem : decls.getD x [] ∈ decls := by
      rw [List.getD_eq_getElem?_getD, List.getElem?_eq_getElem hxlt]
      exact List.getElem_mem hxlt
    have h4 : 4 ≤ (decls.getD x []).length := hlen _ hmem
    refine ⟨hfa ▸ hmem, ?_, ?_⟩
    · rw [hfa, hra, mark_patched_length]
    · intro j hj
      rw [hfa] at hj ⊢
      rw [hra]
      exact mark_patched_getD (decls.getD x []) i hi3 h4 j hj

/-- C2 counterexample: the stream 20, 20, 0, 65, 66, 67, 68.  The first
candidate (opcode at position 0) fails the identifier check at position 2
(byte 0).  Under the claim's rule — resume one byte after the opcode — the
scanner would restart at position 1 and find the valid declaration
20, 0, 65, 66, 67, 68; the real scanner instead resumes at the offending
byte's position 2 and finds nothing, so the overlapping candidate IS missed
and the claimed resumption point is wrong. -/
theorem C2_counterexample :
    find_method_declarations [20, 20, 0, 65, 66, 67, 68] = [] ∧
    find_method_declarations_specC2 [20, 20, 0, 65, 66, 67, 68] =
      [[20, 0, 65, 66, 67, 68]] ∧
    find_method_declarations [20, 20, 0, 65, 66, 67, 68] ≠
      find_method_declarations_specC2 [20, 20, 0, 65, 66, 67, 68] := by
  have h1 : find_method_declarations [20, 20, 0, 65, 66, 67, 68] = [] := by
    simp [find_method_declarations, scanLoop, is_valid_acpiname_char]
  have h2 : find_method_declarations_specC2 [20, 20, 0, 65, 66, 67, 68] =
      [[20, 0, 65, 66, 67, 68]] := by decide
  exact ⟨h1, h2, by rw [h1, h2]; simp⟩

/-- C2 (amended): when the Byte Scanner, while reading the 4 name bytes of a
candidate, encounters a byte that is not a valid identifier character, it
discards the candidate and resumes scanning for an opcode from the position of
the offending byte itself (the seek to the pre-read cursor makes the loop
re-read that byte with an empty buffer) — one byte before the current read
position, but NOT from one byte after the candidate's opcode position, so
candidates whose opcode lies strictly between the discarded opcode and the
offending byte are missed. -/
theorem C2_reset_rereads_offending_byte (data : List Nat) (pos : Nat)
    (buf : List Nat) (numread : Nat) (results : List (List Nat))
    (hpos : pos < data.length) (hbuf : 2 ≤ buf.length)
    (hv : is_valid_acpiname_char data[pos] = false) :
    scanLoop data pos buf numread false results =
      scanLoop data pos [] numread false results := by
  rw [scanLoop, dif_pos hpos]
  rw [if_neg (by rintro ⟨h1, _⟩; rw [h1] at hbuf; simp at hbuf)]
  rw [if_neg (by
    simp only [List.length_append, List.length_cons, List.length_nil]; omega)]
  rw [if_neg (by
    simp only [List.length_append, List.length_cons, List.length_nil]; omega)]
  rw [if_pos ⟨rfl, hv⟩]

/-- C2 witness: the reset step on the stream 20, 20, 0, 65 at position 2 with
the candidate buffer 20, 20 in the name phase. -/
theorem C2_reset_rereads_offending_byte_witness :
    scanLoop [20, 20, 0, 65] 2 [20, 20] 4 false [] =
      scanLoop [20, 20, 0, 65] 2 [] 4 false [] :=
  C2_reset_rereads_offending_byte [20, 20, 0, 65] 2 [20, 20] 4 []
    (by decide) (by decide) (by decide)

/-- C5: for every input byte stream, every method declaration emitted by the
scanner ends in at least 4 bytes whose trailing 4 (the reversed record's first
4) each decode to an ASCII character in A-Z, a-z, 0-9 or underscore
(`is_valid_acpiname_char`). -/
theorem C5_trailing_name_bytes_valid (data : List Nat) (r : List Nat)
    (hr : r ∈ find_method_declarations data) :
    4 ≤ r.length ∧ ∀ c ∈ r.reverse.take 4, is_valid_acpiname_char c = true :=
  scanLoop_names_valid data 0 [] 0 true []
    (fun r hr => absurd hr (List.not_mem_nil r))
    (fun h1 _ => absurd h1 (by simp))
    r hr

/-- C5 witness: the single declaration scanned from the stream
20, 0, 65, 66, 67, 68. -/
theorem C5_trailing_name_bytes_valid_witness :
    4 ≤ ([20, 0, 65, 66, 67, 68] : List Nat).length ∧
    ∀ c ∈ ([20, 0, 65, 66, 67, 68] : List Nat).reverse.take 4,
      is_valid_acpiname_char c = true :=
  C5_trailing_name_bytes_valid [20, 0, 65, 66, 67, 68] [20, 0, 65, 66, 67, 68]
    (by simp [find_method_declarations, scanLoop, is_valid_acpiname_char])

/-- C9: the scanner terminates on every finite input and never raises — it is
a total function, accepted by descent on the measure
2·(stream length − cursor) + min |buffer| 1, which every step including the
one-byte backtracking rewind strictly decreases — and a candidate still
incomplete when the stream ends is silently discarded: past the end of the
data the loop returns exactly the already-emitted results, whatever partial
candidate state (buffer, pending count, phase) it carries, so malformed or
truncated input only produces fewer (possibly zero) results. -/
theorem C9_truncation_discards_candidate (data : List Nat) (pos : Nat)
    (buf : List Nat) (numread : Nat) (read_len : Bool)
    (results : List (List Nat)) (hp : data.length ≤ pos) :
    scanLoop data pos buf numread read_len results = results := by
  rw [scanLoop, dif_neg (by omega)]

/-- C9 witness: a stream of one byte with the cursor past the end and a
pending half-read candidate. -/
theorem C9_truncation_discards_candidate_witness :
    (([20] : List Nat).length ≤ 5) ∧
    scanLoop [20] 5 [20, 0] 4 false [] = [] :=
  ⟨by decide, C9_truncation_discards_candidate [20] 5 [20, 0] 4 false []
    (by decide)⟩

/-- C8 witness: the synthesis run on the `ABC1`/`ABC2` declarations with
pattern `ABC+`. -/
theorem C8_replace_frame_witness :
    ∃ i < 3, ∀ p ∈ [(⟨[20, 0, 65, 66, 67, 49], [20, 0, 88, 66, 67, 49], [65, 66, 67, 43]⟩ : ACPIPatch),
                    ⟨[20, 0, 65, 66, 67, 50], [20, 0, 88, 66, 67, 50], [65, 66, 67, 43]⟩],
      p.finda ∈ [[20, 0, 65, 66, 67, 49], [20, 0, 65, 66, 67, 50]] ∧
      p.replacea.length = p.finda.length ∧
      ∀ j < p.finda.length,
        p.replacea.getD j 0 =
          if j = p.finda.length - 4 + i then 88 else p.finda.getD j 0 :=
  C8_replace_frame [65, 66, 67, 43] [[20, 0, 65, 66, 67, 49], [20, 0, 65, 66, 67, 50]]
    [⟨[20, 0, 65, 66, 67, 49], [20, 0, 88, 66, 67, 49], [65, 66, 67, 43]⟩,
     ⟨[20, 0, 65, 66, 67, 50], [20, 0, 88, 66, 67, 50], [65, 66, 67, 43]⟩]
    (by decide) (by decide)

end ACPIProxyClaims
